import Mathlib

/-!
Verification development for the CMangosAdminServer telnet wrapper
(`code/wrapper/TelnetWrapper.py`, with the older `code/core/TelnetWrapper.py`
as secondary source).  Python strings and byte strings are embedded as
`List Char` (each `Char` standing for one byte; the traffic in scope is
ASCII plus CR/LF, and `telnetlib`'s IAC byte 255 is modelled explicitly).
The telnet client is a record holding the pending inbound byte stream, the
log of I/O events, and whether the socket is still open; `telnetlib`
primitives (`read_until`, `write`, `close`) become functions on that record,
fallible operations returning `Except`.
-/

set_option maxRecDepth 8192

namespace CMangos

/-- Shorthand turning a Lean string literal into the `List Char` byte/string
representation used throughout the model. -/
def str (s : String) : List Char := s.data

/-- The backslash character (byte 92). -/
def bsChar : Char := Char.ofNat 92

/-- The single-quote character (byte 39). -/
def sqChar : Char := Char.ofNat 39

/-- The double-quote character (byte 34). -/
def dqChar : Char := Char.ofNat 34

/-- Carriage return (byte 13). -/
def crChar : Char := Char.ofNat 13

/-- Line feed (byte 10). -/
def nlChar : Char := Char.ofNat 10

/-- Horizontal tab (byte 9). -/
def tabChar : Char := Char.ofNat 9

/-- The telnet IAC byte (255), doubled by `telnetlib.Telnet.write`. -/
def iacChar : Char := Char.ofNat 255

/-- Test whether `pat` is an initial segment of `s` (used to locate pattern
occurrences the way Python's `str.find`/`in` and `telnetlib.read_until` do). -/
def startsWithPat : List Char → List Char → Bool
  | [], _ => true
  | _ :: _, [] => false
  | p :: ps, c :: cs => if p = c then startsWithPat ps cs else false

/-- Split `s` at the first occurrence of `pat`: `some (pre, rest)` with
`s = pre ++ pat ++ rest` and no occurrence of `pat` beginning inside `pre`;
`none` when `pat` does not occur.  (For the empty `s` this is `none`; all
patterns used by the source are nonempty.) -/
def splitAtPat (pat : List Char) : List Char → Option (List Char × List Char)
  | [] => none
  | c :: cs =>
    if startsWithPat pat (c :: cs) then some ([], (c :: cs).drop pat.length)
    else (splitAtPat pat cs).map (fun p => (c :: p.1, p.2))

/-- Models Python's substring test `sub in s` (true for the empty `sub`). -/
def pyContains (sub s : List Char) : Bool :=
  if sub.length = 0 then true else (splitAtPat sub s).isSome

/-- Fuel-driven worker for `pySplit`; the fuel is an upper bound on the
number of remaining characters, so the recursion is structural and the
function evaluates inside the kernel. -/
def pySplitFuel (sep : List Char) : Nat → List Char → List (List Char)
  | 0, s => [s]
  | fuel + 1, s =>
    match splitAtPat sep s with
    | none => [s]
    | some (pre, rest) => pre :: pySplitFuel sep fuel rest

/-- Models Python's `s.split(sep)` for a nonempty separator: the maximal
left-to-right decomposition at non-overlapping occurrences of `sep`.
(Python raises on an empty separator; we return `[s]` there, unused.) -/
def pySplit (sep s : List Char) : List (List Char) :=
  if sep.length = 0 then [s] else pySplitFuel sep s.length s

/-- Models Python's `s.replace(old, new)` for nonempty `old`: replace every
non-overlapping occurrence, scanning left to right.  (Python's behaviour for
empty `old` differs and is never exercised by the source.) -/
def pyReplace (s old new : List Char) : List Char :=
  List.intercalate new (pySplit old s)

/-- Python's `str.isspace` character class, as used by `str.strip()`. -/
def pySpace (c : Char) : Bool :=
  c = ' ' || c = tabChar || c = nlChar || c = crChar ||
    c = Char.ofNat 11 || c = Char.ofNat 12

/-- Models Python's `s.strip()`: remove leading and trailing whitespace. -/
def pyStrip (s : List Char) : List Char :=
  ((s.dropWhile pySpace).reverse.dropWhile pySpace).reverse

/-- Accumulate the numeric value of a decimal digit string. -/
def digitsNat (ds : List Char) : Nat :=
  ds.foldl (fun a c => 10 * a + (c.toNat - 48)) 0

/-- Decimal digit-run parser used by `pyInt` (ASCII digits only). -/
def digitsToNatOpt (ds : List Char) : Option Nat :=
  if ds.isEmpty then none
  else if ds.all (·.isDigit) then some (digitsNat ds) else none

/-- Models Python's `int(s)` on decimal strings: surrounding whitespace is
ignored, one optional sign is allowed, then a nonempty ASCII digit run;
anything else raises `ValueError`, modelled as `none`. -/
def pyInt (s : List Char) : Option Int :=
  if (pyStrip s).isEmpty then none
  else if (pyStrip s).headD ' ' = '-' then
    (digitsToNatOpt (pyStrip s).tail).map (fun n => -(n : Int))
  else if (pyStrip s).headD ' ' = '+' then
    (digitsToNatOpt (pyStrip s).tail).map (fun n => (n : Int))
  else (digitsToNatOpt (pyStrip s)).map (fun n => (n : Int))

/-- Models Python's `str(n)` for an `int` (decimal, `-` sign). -/
def pyStr (n : Int) : List Char := (toString n).data

/-- Models Python's slice `l[a:-b]` for literal nonnegative `a` and positive
`b` (the source uses `[3:-2]`, `[2:-1]` and `[1:-1]`). -/
def pySlice (a b : Nat) (l : List α) : List α :=
  (l.drop a).take (l.length - (a + b))

/-- Quote character CPython's `repr` picks for a bytes object: `'` unless the
bytes contain `'` and no `"`. -/
def reprQuote (s : List Char) : Char :=
  if s.any (fun c => c = sqChar) && !(s.any (fun c => c = dqChar)) then dqChar
  else sqChar

/-- Hexadecimal digit (lowercase) used by `\xhh` escapes. -/
def hexDigit (n : Nat) : Char :=
  if n < 10 then Char.ofNat (48 + n) else Char.ofNat (87 + n)

/-- How CPython's `repr` of a bytes object renders one byte, given the quote
character `q` chosen for the literal. -/
def pyByteEscape (q c : Char) : List Char :=
  if c = bsChar then [bsChar, bsChar]
  else if c = q then [bsChar, q]
  else if c = tabChar then [bsChar, 't']
  else if c = nlChar then [bsChar, 'n']
  else if c = crChar then [bsChar, 'r']
  else if 32 ≤ c.toNat && c.toNat < 127 then [c]
  else [bsChar, 'x', hexDigit (c.toNat / 16 % 16), hexDigit (c.toNat % 16)]

/-- Models Python's `str(b)` on a bytes object `b`: the `repr` text
`b'...'` (or `b"..."`), each byte escaped as CPython does. -/
def bytesRepr (s : List Char) : List Char :=
  let q := reprQuote s
  'b' :: q :: (s.flatMap (pyByteEscape q) ++ [q])

/-! ## The telnet transport

`telnetlib.Telnet` is modelled by a record: the bytes the remote has sent
that were not consumed yet, the chronological log of I/O events, and whether
the socket is still open (`Telnet.close` sets `self.sock = None`).  A
`read_until` that finds the pattern consumes up to and including its first
occurrence; when the pattern is absent, the blocking variant returns the
buffered data at end of stream and the timeout variant returns the data
available when the timer fires — both modelled as draining the buffer (the
amount read on expiry is timing-dependent and no theorem below depends on
it).  `write` on a closed client is `self.sock.sendall` with `sock = None`,
an `AttributeError`; a read on a closed client raises `EOFError`. -/

/-- One observable I/O action of the telnet client: a blocking
`read_until` (`readB`), a `read_until` with a timeout (`readT`), or a
`write` (`wrote`), each with the exact bytes read or sent. -/
inductive TEvent where
  | readB (data : List Char)
  | readT (data : List Char)
  | wrote (data : List Char)
deriving DecidableEq

/-- State of a `telnetlib.Telnet` client. -/
structure TnClient where
  input : List Char
  events : List TEvent
  sockOpen : Bool
deriving DecidableEq

/-- The Python exceptions the modelled code can raise. -/
inductive PyError where
  | valueError
  | attributeError
  | eofError
deriving DecidableEq

/-- `telnetlib.Telnet.write` doubles IAC bytes before sending. -/
def iacEscape (data : List Char) : List Char :=
  pyReplace data [iacChar] [iacChar, iacChar]

/-- Models `tn_client.write(data)`. -/
def twrite (data : List Char) (c : TnClient) : Except PyError TnClient :=
  if c.sockOpen then
    .ok { c with events := c.events ++ [.wrote (iacEscape data)] }
  else .error .attributeError

/-- Models blocking `tn_client.read_until(pat)`. -/
def read_until (pat : List Char) (c : TnClient) :
    Except PyError (List Char × TnClient) :=
  if c.sockOpen then
    match splitAtPat pat c.input with
    | some (pre, rest) =>
      .ok (pre ++ pat,
        { c with input := rest, events := c.events ++ [.readB (pre ++ pat)] })
    | none =>
      .ok (c.input, { c with input := [], events := c.events ++ [.readB c.input] })
  else .error .eofError

/-- Models `tn_client.read_until(pat, timeout=t)`; expiry of the timeout is
not an error, the data read so far is simply returned. -/
def read_until_timeout (pat : List Char) (c : TnClient) :
    Except PyError (List Char × TnClient) :=
  if c.sockOpen then
    match splitAtPat pat c.input with
    | some (pre, rest) =>
      .ok (pre ++ pat,
        { c with input := rest, events := c.events ++ [.readT (pre ++ pat)] })
    | none =>
      .ok (c.input, { c with input := [], events := c.events ++ [.readT c.input] })
  else .error .eofError

/-- Models `tn_client.close()` (releases the socket; never raises). -/
def close_session (c : TnClient) : TnClient :=
  { c with sockOpen := false }

/-! ## The wrapper (`code/wrapper/TelnetWrapper.py`)

Each method becomes a function of the client state; credentials and command
arguments are passed explicitly.  Logging calls have no observable effect
and are dropped. -/

/-- The CLI prompt marker `b"mangos>"`. -/
def promptPat : List Char := str "mangos>"

/-- Models `TelnetWrapper.wait_cli_prompt`: a short-timeout wait for the
prompt, a bare-newline write, then a blocking wait for the prompt whose
data is discarded. -/
def wait_cli_prompt (c : TnClient) : Except PyError TnClient := do
  let (_, c) ← read_until_timeout promptPat c
  let c ← twrite (str "\n") c
  let (_, c) ← read_until promptPat c
  pure c

/-- Models `TelnetWrapper.connect`: answer the `Username:` and `Password:`
prompts (each answer followed by `" \n"`), then synchronize the prompt. -/
def connect (user pwd : List Char) (c : TnClient) : Except PyError TnClient := do
  let (_, c) ← read_until (str "Username:") c
  let c ← twrite (user ++ str " \n") c
  let (_, c) ← read_until (str "Password:") c
  let c ← twrite (pwd ++ str " \n") c
  wait_cli_prompt c

/-- Models `TelnetWrapper.disconnect`: write `b"quit \n"`, expect no reply. -/
def disconnect (c : TnClient) : Except PyError TnClient :=
  twrite (str "quit \n") c

/-- Models `TelnetWrapper.close`: `disconnect` then `close_session`. -/
def close (c : TnClient) : Except PyError TnClient := do
  let c ← disconnect c
  pure (close_session c)

/-- The post-processing `execute_command` applies to the bytes returned by
`read_until`: `str(raw)[2:-1].replace('\\r', '')` — the `repr` of the bytes
with the `b'`/`'` wrapper sliced off and every backslash-r escape removed. -/
def rawResponse (raw : List Char) : List Char :=
  pyReplace (pySlice 2 1 (bytesRepr raw)) [bsChar, 'r'] []

/-- Models `TelnetWrapper.execute_command`: flush via `wait_cli_prompt`,
write the command string verbatim, read until the prompt marker, and return
the post-processed text. -/
def execute_command (command : List Char) (c : TnClient) :
    Except PyError (List Char × TnClient) := do
  let c ← wait_cli_prompt c
  let c ← twrite command c
  let (raw, c) ← read_until promptPat c
  pure (rawResponse raw, c)

/-- One row of the online-accounts table, as the wrapper unpacks it. -/
structure Account where
  id : Int
  username : List Char
  chars : List Char
  ip : List Char
  gm : List Char
  expansion : List Char
deriving DecidableEq

/-- Models one iteration of the `get_online_accounts` loop: slice off the
wrapping `|` pair, split into exactly six fields (a `ValueError` — the
spec's `MalformedRowError` — otherwise), convert the id with `int`. -/
def parseOnlineAccountRow (account : List Char) :
    Except PyError (List Char × Account) :=
  match pySplit ['|'] (pySlice 1 1 account) with
  | [account_id, username, chars, ip, gm, expansion] =>
    match pyInt account_id with
    | some n =>
      .ok (pyStrip account_id,
        { id := n, username := pyStrip username, chars := pyStrip chars,
          ip := pyStrip ip, gm := pyStrip gm, expansion := pyStrip expansion })
    | none => .error .valueError
  | _ => .error .valueError

/-- Python `dict` assignment `m[k] = v`: update in place if the key exists,
otherwise append, preserving insertion order. -/
def dictInsert (m : List (List Char × Account)) (k : List Char) (v : Account) :
    List (List Char × Account) :=
  if m.any (fun p => decide (p.1 = k)) then
    m.map (fun p => if p.1 = k then (k, v) else p)
  else m ++ [(k, v)]

/-- The `for account in result` loop of `get_online_accounts`: parse each
row and insert it into the accounts dict, propagating the first error. -/
def onlineRowsLoop (acc : List (List Char × Account)) :
    List (List Char) → Except PyError (List (List Char × Account))
  | [] => .ok acc
  | row :: rest =>
    match parseOnlineAccountRow row with
    | .error e => .error e
    | .ok kv => onlineRowsLoop (dictInsert acc kv.1 kv.2) rest

/-- Models `TelnetWrapper.get_online_accounts`: run
`'account onlinelist \n'`, drop the first three and last two line segments
of the response, parse each remaining row into the accounts dict. -/
def get_online_accounts (c : TnClient) :
    Except PyError (List (List Char × Account) × TnClient) := do
  let (result, c) ← execute_command (str "account onlinelist \n") c
  let rows := pySlice 3 2 (pySplit [bsChar, 'n'] result)
  let accounts ← onlineRowsLoop [] rows
  pure (accounts, c)

/-- The command string built by `TelnetWrapper.account_create`. -/
def account_create_command (username password : List Char) : List Char :=
  str "account create " ++ username ++ str " " ++ password ++ str " \n"

/-- Models `TelnetWrapper.account_create`. -/
def account_create (username password : List Char) (c : TnClient) :
    Except PyError (Bool × TnClient) := do
  let (result, c) ← execute_command (account_create_command username password) c
  pure (!pyContains (str "Account with this name already exist") result, c)

/-- Models `TelnetWrapper.account_delete`: run the delete command and test
the success sentinel `'Account deleted:' in result`. -/
def account_delete (username : List Char) (c : TnClient) :
    Except PyError (Bool × TnClient) := do
  let (result, c) ← execute_command (str "account delete " ++ username ++ str " \n") c
  pure (pyContains (str "Account deleted:") result, c)

/-- Models `TelnetWrapper.account_set_addon`: reject a negative expansion id
before any I/O, otherwise run the command and test its sentinel. -/
def account_set_addon (username : List Char) (addon : Int) (c : TnClient) :
    Except PyError (Bool × TnClient) :=
  if addon < 0 then .ok (false, c)
  else do
    let (result, c) ← execute_command
      (str "account set addon " ++ username ++ str " " ++ pyStr addon ++ str " \n") c
    pure (pyContains
      (str "has been granted " ++ pyStr addon ++ str " expansion rights.") result, c)

/-- Models `TelnetWrapper.account_set_gm_level`: reject a level outside
`0..3` before any I/O, otherwise run the command and test its sentinel. -/
def account_set_gm_level (username : List Char) (gm_level : Int) (c : TnClient) :
    Except PyError (Bool × TnClient) :=
  if gm_level < 0 ∨ gm_level > 3 then .ok (false, c)
  else do
    let (result, c) ← execute_command
      (str "account set gmlevel " ++ username ++ str " " ++ pyStr gm_level ++ str " \n") c
    pure (pyContains (str "You change security level of account ") result, c)

/-- Python truthiness of a string: nonempty. -/
def pyTruthy (s : List Char) : Bool := !s.isEmpty

/-- Result type of the deleted-character listings, which the source returns
either as a literal `[]` or as the raw unparsed text (a `TODO` branch). -/
inductive DeletedListResult where
  | emptyList
  | rawText (s : List Char)
deriving DecidableEq

/-- Models `TelnetWrapper.character_deleted_list`; note the source tests
`if 'No characters found.':` — the truthiness of the literal itself. -/
def character_deleted_list (c : TnClient) :
    Except PyError (DeletedListResult × TnClient) := do
  let (result, c) ← execute_command (str "character deleted list \n") c
  if pyTruthy (str "No characters found.") then pure (.emptyList, c)
  else pure (.rawText result, c)

/-- Models `TelnetWrapper.character_search_deleted_list`; same always-true
literal truthiness test as `character_deleted_list`. -/
def character_search_deleted_list (chara : List Char) (c : TnClient) :
    Except PyError (DeletedListResult × TnClient) := do
  let (result, c) ← execute_command
    (str "character deleted list " ++ chara ++ str " \n") c
  if pyTruthy (str "No characters found.") then pure (.emptyList, c)
  else pure (.rawText result, c)

/-- Models `TelnetWrapper.auction_add_item_alliance`; its success test is
`'mangos>' == result`, only satisfiable because `execute_command` keeps the
prompt marker in the returned text. -/
def auction_add_item_alliance (item_id buy_out min_bid item_count : Int)
    (long_duration very_long_duration : Bool) (c : TnClient) :
    Except PyError (Bool × TnClient) := do
  let command := str "auction item alliance " ++ pyStr item_id ++ str ":" ++
    pyStr item_count ++ str " "
  let command := if min_bid ≠ 0 then command ++ pyStr min_bid ++ str " " else command
  let command := command ++ pyStr buy_out ++ str " "
  let command := command ++
    (if long_duration then
      (if very_long_duration then str "very" else []) ++ str "long"
    else str "short")
  let command := command ++ str " \n"
  let (result, c) ← execute_command command c
  pure (decide (str "mangos>" = result), c)

/-- The writes among a list of events, in order. -/
def writesOf (events : List TEvent) : List (List Char) :=
  events.filterMap (fun e => match e with | .wrote d => some d | _ => none)

/-! ## Lemmas about the string primitives -/

theorem startsWithPat_self_append (p t : List Char) :
    startsWithPat p (p ++ t) = true := by
  induction p with
  | nil => rfl
  | cons c cs ih => simp [startsWithPat, ih]

theorem startsWithPat_eq_append (p : List Char) :
    ∀ s, startsWithPat p s = true → s = p ++ s.drop p.length := by
  induction p with
  | nil => intro s _; rfl
  | cons c cs ih =>
    intro s h
    cases s with
    | nil => simp [startsWithPat] at h
    | cons d ds =>
      simp only [startsWithPat] at h
      split at h
      · next heq =>
        subst heq
        have := ih ds h
        simpa [List.length_cons, List.drop_succ_cons] using congrArg (c :: ·) this
      · exact absurd h (by simp)

theorem splitAtPat_eq_append (pat : List Char) :
    ∀ s pre rest, splitAtPat pat s = some (pre, rest) → s = pre ++ pat ++ rest := by
  intro s
  induction s with
  | nil => intro pre rest h; simp [splitAtPat] at h
  | cons c cs ih =>
    intro pre rest h
    simp only [splitAtPat] at h
    split at h
    · next hsw =>
      obtain ⟨h1, h2⟩ := Prod.mk.injEq .. ▸ Option.some.injEq .. ▸ h
      have := startsWithPat_eq_append pat (c :: cs) hsw
      simp only [← h1, List.nil_append]
      rw [← h2]
      exact this
    · cases hsp : splitAtPat pat cs with
      | none => rw [hsp] at h; simp at h
      | some pr =>
        obtain ⟨pre', rest'⟩ := pr
        rw [hsp] at h
        have h' : (c :: pre', rest') = (pre, rest) := Option.some.inj h
        have h1 : pre = c :: pre' := (congrArg Prod.fst h').symm
        have h2 : rest = rest' := (congrArg Prod.snd h').symm
        subst h1
        subst h2
        simpa [List.append_assoc] using ih _ _ hsp

theorem splitAtPat_rest_length (pat : List Char) (hp : pat ≠ []) (s pre rest : List Char)
    (h : splitAtPat pat s = some (pre, rest)) : rest.length < s.length := by
  have hs := splitAtPat_eq_append pat s pre rest h
  have : s.length = pre.length + (pat.length + rest.length) := by
    rw [hs]; simp [List.length_append]
  have hpl : 0 < pat.length := List.length_pos.mpr hp
  omega

theorem splitAtPat_at_start (pat t : List Char) (hp : pat ≠ []) :
    splitAtPat pat (pat ++ t) = some ([], t) := by
  cases pat with
  | nil => exact absurd rfl hp
  | cons p ps =>
    have hsw : startsWithPat (p :: ps) ((p :: ps) ++ t) = true :=
      startsWithPat_self_append _ _
    have hdr : ((p :: ps) ++ t).drop (p :: ps).length = t := List.drop_left _ _
    simp only [List.cons_append] at hsw hdr ⊢
    simp [splitAtPat, hsw, hdr]

theorem startsWithPat_head_ne (p : Char) (ps : List Char) (c : Char) (s : List Char)
    (h : c ≠ p) : startsWithPat (p :: ps) (c :: s) = false := by
  simp [startsWithPat, Ne.symm h]

theorem splitAtPat_cons_of_not_start (pat : List Char) (c : Char) (s : List Char)
    (h : startsWithPat pat (c :: s) = false) :
    splitAtPat pat (c :: s) = (splitAtPat pat s).map (fun p => (c :: p.1, p.2)) := by
  simp [splitAtPat, h]

/-- First-occurrence law: if the head character of the pattern does not occur
in `pre`, the first occurrence of the pattern in `pre ++ pat ++ rest` is the
explicit one. -/
theorem splitAtPat_first (p : Char) (ps : List Char) :
    ∀ pre rest, p ∉ pre →
      splitAtPat (p :: ps) (pre ++ (p :: ps) ++ rest) = some (pre, rest) := by
  intro pre
  induction pre with
  | nil => intro rest _; simpa using splitAtPat_at_start (p :: ps) rest (by simp)
  | cons c cs ih =>
    intro rest hmem
    have hc : c ≠ p := fun h => hmem (h ▸ List.mem_cons_self ..)
    have hcs : p ∉ cs := fun h => hmem (List.mem_cons_of_mem _ h)
    have hsw : startsWithPat (p :: ps) ((c :: cs) ++ (p :: ps) ++ rest) = false := by
      simp only [List.cons_append]
      exact startsWithPat_head_ne p ps c _ hc
    simp only [List.cons_append] at hsw ⊢
    rw [splitAtPat_cons_of_not_start _ _ _ hsw, ih rest hcs]
    rfl

/-- If the head character of a nonempty pattern does not occur in `s`, the
pattern does not occur in `s`. -/
theorem splitAtPat_none (p : Char) (ps : List Char) :
    ∀ s, p ∉ s → splitAtPat (p :: ps) s = none := by
  intro s
  induction s with
  | nil => intro _; rfl
  | cons c cs ih =>
    intro hmem
    have hc : c ≠ p := fun h => hmem (h ▸ List.mem_cons_self ..)
    have hcs : p ∉ cs := fun h => hmem (List.mem_cons_of_mem _ h)
    rw [splitAtPat_cons_of_not_start _ _ _ (startsWithPat_head_ne p ps c cs hc),
      ih hcs]
    rfl

theorem pySplitFuel_congr (sep : List Char) (hp : sep ≠ []) :
    ∀ f1 f2 s, s.length ≤ f1 → s.length ≤ f2 →
      pySplitFuel sep f1 s = pySplitFuel sep f2 s := by
  intro f1
  induction f1 with
  | zero =>
    intro f2 s h1 _
    have : s = [] := List.length_eq_zero.mp (Nat.le_zero.mp h1)
    subst this
    cases f2 with
    | zero => rfl
    | succ m => simp [pySplitFuel, splitAtPat]
  | succ n ih =>
    intro f2 s h1 h2
    cases f2 with
    | zero =>
      have : s = [] := List.length_eq_zero.mp (Nat.le_zero.mp h2)
      subst this
      simp [pySplitFuel, splitAtPat]
    | succ m =>
      simp only [pySplitFuel]
      cases hsp : splitAtPat sep s with
      | none => rfl
      | some pr =>
        obtain ⟨pre, rest⟩ := pr
        have hl := splitAtPat_rest_length sep hp s pre rest hsp
        exact congrArg (pre :: ·) (ih m rest (by omega) (by omega))

theorem pySplit_ne_nil (sep s : List Char) : pySplit sep s ≠ [] := by
  unfold pySplit
  split
  · simp
  · cases hln : s.length with
    | zero => simp [pySplitFuel]
    | succ n =>
      simp only [hln, pySplitFuel]
      cases hsp : splitAtPat sep s with
      | none => simp
      | some pr => simp

theorem pySplit_cons_of_not_start (sep : List Char) (hp : sep ≠ []) (c : Char)
    (s : List Char) (h : startsWithPat sep (c :: s) = false) :
    pySplit sep (c :: s) = (pySplit sep s).modifyHead (c :: ·) := by
  have hpl : sep.length ≠ 0 := by simpa using hp
  unfold pySplit
  simp only [hpl, if_false, List.length_cons, pySplitFuel,
    splitAtPat_cons_of_not_start sep c s h]
  cases hsp : splitAtPat sep s with
  | none =>
    cases hln : s.length with
    | zero =>
      have : s = [] := List.length_eq_zero.mp hln
      subst this
      simp [pySplitFuel]
    | succ n => simp [hln, pySplitFuel, hsp]
  | some pr =>
    obtain ⟨pre, rest⟩ := pr
    have hl := splitAtPat_rest_length sep hp s pre rest hsp
    cases hln : s.length with
    | zero => omega
    | succ n =>
      simp only [hln, pySplitFuel, hsp, Option.map_some, List.modifyHead]
      exact congrArg (fun l => (c :: pre) :: l)
        (pySplitFuel_congr sep hp n.succ n rest (by omega) (by omega))

theorem pySplit_at_start (sep t : List Char) (hp : sep ≠ []) :
    pySplit sep (sep ++ t) = [] :: pySplit sep t := by
  have hpl : sep.length ≠ 0 := by simpa using hp
  unfold pySplit
  simp only [hpl, if_false]
  have hpl2 : 0 < sep.length := List.length_pos.mpr hp
  cases hln : (sep ++ t).length with
  | zero => rw [List.length_append] at hln; omega
  | succ n =>
    rw [List.length_append] at hln
    simp only [pySplitFuel, splitAtPat_at_start sep t hp]
    exact congrArg (fun l => ([] : List Char) :: l)
      (pySplitFuel_congr sep hp n t.length t (by omega) (by omega))

/-- A string not containing the separator's head character is unsplit. -/
theorem pySplit_of_not_mem (p : Char) (ps s : List Char) (h : p ∉ s) :
    pySplit (p :: ps) s = [s] := by
  unfold pySplit
  simp only [List.length_cons, if_neg (Nat.succ_ne_zero _)]
  cases hln : s.length with
  | zero => simp [pySplitFuel, List.length_eq_zero.mp hln]
  | succ n => simp [pySplitFuel, splitAtPat_none p ps s h]

/-- Splitting peels off a separator-free segment before an explicit
separator occurrence. -/
theorem pySplit_append_sep (p : Char) (ps : List Char) :
    ∀ x rest, p ∉ x →
      pySplit (p :: ps) (x ++ (p :: ps) ++ rest) = x :: pySplit (p :: ps) rest := by
  intro x
  induction x with
  | nil => intro rest _; simpa using pySplit_at_start (p :: ps) rest (by simp)
  | cons c cs ih =>
    intro rest hmem
    have hc : c ≠ p := fun h => hmem (h ▸ List.mem_cons_self ..)
    have hcs : p ∉ cs := fun h => hmem (List.mem_cons_of_mem _ h)
    have hsw : startsWithPat (p :: ps) ((c :: cs) ++ (p :: ps) ++ rest) = false := by
      simp only [List.cons_append]
      exact startsWithPat_head_ne p ps c _ hc
    simp only [List.cons_append] at hsw ⊢
    rw [pySplit_cons_of_not_start (p :: ps) (by simp) c _ hsw, ih rest hcs]
    rfl

theorem intercalate_cons_cons (sep a b : List Char) (l : List (List Char)) :
    List.intercalate sep (a :: b :: l) = a ++ sep ++ List.intercalate sep (b :: l) := by
  simp [List.intercalate, List.flatten, List.append_assoc]

/-- Round trip: splitting an interleaving recovers the segments, provided no
segment contains the separator's head character. -/
theorem pySplit_intercalate (p : Char) (ps : List Char) :
    ∀ xs, xs ≠ [] → (∀ x ∈ xs, p ∉ x) →
      pySplit (p :: ps) (List.intercalate (p :: ps) xs) = xs := by
  intro xs
  induction xs with
  | nil => intro h _; exact absurd rfl h
  | cons x xs ih =>
    intro _ hmem
    cases xs with
    | nil =>
      rw [show List.intercalate (p :: ps) [x] = x by simp [List.intercalate]]
      exact pySplit_of_not_mem p ps x (hmem x (by simp))
    | cons y ys =>
      rw [intercalate_cons_cons]
      rw [List.append_assoc, ← List.append_assoc x,
        pySplit_append_sep p ps x _ (hmem x (by simp))]
      exact congrArg (x :: ·)
        (ih (by simp) (fun z hz => hmem z (List.mem_cons_of_mem _ hz)))

/-! ## Lemmas about `pyReplace` -/

theorem intercalate_modifyHead_cons (new : List Char) (c : Char)
    (L : List (List Char)) (h : L ≠ []) :
    List.intercalate new (L.modifyHead (c :: ·)) = c :: List.intercalate new L := by
  cases L with
  | nil => exact absurd rfl h
  | cons t ts =>
    cases ts with
    | nil => simp [List.intercalate]
    | cons u us =>
      simp only [List.modifyHead, intercalate_cons_cons]
      simp

theorem pyReplace_cons_of_not_start (old : List Char) (hp : old ≠ []) (c : Char)
    (s new : List Char) (h : startsWithPat old (c :: s) = false) :
    pyReplace (c :: s) old new = c :: pyReplace s old new := by
  unfold pyReplace
  rw [pySplit_cons_of_not_start old hp c s h]
  exact intercalate_modifyHead_cons new c _ (pySplit_ne_nil old s)

theorem pyReplace_at_start (old rest new : List Char) (hp : old ≠ []) :
    pyReplace (old ++ rest) old new = new ++ pyReplace rest old new := by
  unfold pyReplace
  rw [pySplit_at_start old rest hp]
  cases hL : pySplit old rest with
  | nil => exact absurd hL (pySplit_ne_nil old rest)
  | cons t ts =>
    rw [intercalate_cons_cons]
    simp

theorem pyReplace_of_not_mem (p : Char) (ps s new : List Char) (h : p ∉ s) :
    pyReplace s (p :: ps) new = s := by
  unfold pyReplace
  rw [pySplit_of_not_mem p ps s h]
  simp [List.intercalate]

/-! ## Computing `rawResponse`

Characters are classified the way `execute_command`'s post-processing sees
them: printable non-special ASCII passes through `repr` unchanged, CR
becomes the two-character escape that `replace('\\r', '')` then deletes,
LF becomes a literal backslash-n pair. -/

/-- A byte that CPython's bytes `repr` prints as itself (printable ASCII,
not the backslash and not either quote character). -/
def plainByte (c : Char) : Bool :=
  (32 ≤ c.toNat && c.toNat < 127) && !(c = bsChar) && !(c = sqChar) && !(c = dqChar)

/-- The bytes allowed in a reply body for the response computation: plain
printable bytes plus CR and LF. -/
def respByteOk (c : Char) : Bool := plainByte c || c = crChar || c = nlChar

/-- Net effect of `execute_command`'s post-processing on one reply byte:
CR disappears, LF turns into a literal backslash-n pair, plain bytes stay. -/
def crlfEsc (c : Char) : List Char :=
  if c = crChar then [] else if c = nlChar then [bsChar, 'n'] else [c]

theorem plainByte_escape (c : Char) (h : plainByte c = true) :
    pyByteEscape sqChar c = [c] := by
  simp only [plainByte, Bool.and_eq_true, Bool.not_eq_true', decide_eq_true_eq,
    decide_eq_false_iff_not] at h
  obtain ⟨⟨⟨⟨h1, h2⟩, h3⟩, h4⟩, h5⟩ := h
  have ht : ¬(c = tabChar) := fun he => by
    rw [he] at h1; exact absurd h1 (by decide)
  have hn : ¬(c = nlChar) := fun he => by
    rw [he] at h1; exact absurd h1 (by decide)
  have hr : ¬(c = crChar) := fun he => by
    rw [he] at h1; exact absurd h1 (by decide)
  simp [pyByteEscape, h1, h2, h3, h4, ht, hn, hr]

theorem any_eq_false_of_all (l : List Char) (P Q : Char → Bool)
    (h : l.all P = true) (himp : ∀ c, P c = true → Q c = false) :
    l.any Q = false := by
  induction l with
  | nil => rfl
  | cons c cs ih =>
    simp only [List.all_cons, Bool.and_eq_true] at h
    simp [List.any_cons, himp c h.1, ih h.2]

theorem reprQuote_resp (body : List Char) (h : body.all respByteOk = true) :
    reprQuote (body ++ promptPat) = sqChar := by
  unfold reprQuote
  have h1 : body.any (fun c => c = sqChar) = false := by
    refine any_eq_false_of_all body respByteOk _ h (fun c hc => ?_)
    simp only [respByteOk, plainByte, Bool.or_eq_true, Bool.and_eq_true,
      Bool.not_eq_true', decide_eq_true_eq, decide_eq_false_iff_not] at hc
    rcases hc with (hc | hc) | hc
    · simpa using hc.1.2
    · subst hc; decide
    · subst hc; decide
  have h2 : promptPat.any (fun c => c = sqChar) = false := by decide
  simp [List.any_append, h1, h2]

theorem flatMap_escape_resp (body : List Char) (h : body.all respByteOk = true) :
    pyReplace (body.flatMap (pyByteEscape sqChar) ++ promptPat) [bsChar, 'r'] [] =
      body.flatMap crlfEsc ++ promptPat := by
  induction body with
  | nil =>
    simp only [List.flatMap_nil, List.nil_append]
    exact pyReplace_of_not_mem bsChar ['r'] promptPat [] (by decide)
  | cons c cs ih =>
    simp only [List.all_cons, Bool.and_eq_true] at h
    obtain ⟨hc, hcs⟩ := h
    have ihr := ih hcs
    simp only [respByteOk, Bool.or_eq_true, decide_eq_true_eq] at hc
    rcases hc with (hplain | hcr) | hnl
    · have hesc := plainByte_escape c hplain
      have hcne : c ≠ bsChar := by
        simp only [plainByte, Bool.and_eq_true, Bool.not_eq_true',
          decide_eq_false_iff_not] at hplain
        exact hplain.1.1.2
      have hccr : ¬(c = crChar) := fun he => by
        simp only [plainByte, Bool.and_eq_true, decide_eq_true_eq] at hplain
        rw [he] at hplain; exact absurd hplain.1.1.1 (by decide)
      have hcnl : ¬(c = nlChar) := fun he => by
        simp only [plainByte, Bool.and_eq_true, decide_eq_true_eq] at hplain
        rw [he] at hplain; exact absurd hplain.1.1.1 (by decide)
      simp only [List.flatMap_cons, hesc, crlfEsc, if_neg hccr, if_neg hcnl,
        List.singleton_append, List.cons_append]
      rw [pyReplace_cons_of_not_start [bsChar, 'r'] (by simp) c _ _
        (startsWithPat_head_ne bsChar ['r'] c _ hcne)]
      simp [ihr]
    · subst hcr
      have hesc : pyByteEscape sqChar crChar = [bsChar, 'r'] := by decide
      simp only [List.flatMap_cons, hesc, crlfEsc, if_pos rfl, List.nil_append,
        List.cons_append, List.singleton_append]
      rw [show bsChar :: 'r' :: (cs.flatMap (pyByteEscape sqChar) ++ promptPat) =
        [bsChar, 'r'] ++ (cs.flatMap (pyByteEscape sqChar) ++ promptPat) from rfl]
      rw [pyReplace_at_start [bsChar, 'r'] _ [] (by simp)]
      simpa using ihr
    · subst hnl
      have hesc : pyByteEscape sqChar nlChar = [bsChar, 'n'] := by decide
      have hne : ¬(nlChar = crChar) := by decide
      simp only [List.flatMap_cons, hesc, crlfEsc, if_neg hne, if_pos rfl,
        List.cons_append, List.nil_append]
      have hsw1 : startsWithPat [bsChar, 'r']
          (bsChar :: 'n' :: (cs.flatMap (pyByteEscape sqChar) ++ promptPat)) = false := by
        simp [startsWithPat]
      rw [pyReplace_cons_of_not_start [bsChar, 'r'] (by simp) bsChar _ _ hsw1]
      rw [pyReplace_cons_of_not_start [bsChar, 'r'] (by simp) 'n' _ _
        (startsWithPat_head_ne bsChar ['r'] 'n' _ (by decide))]
      simp [ihr]

theorem pySlice_two_one (a b t : Char) (x : List Char) :
    pySlice 2 1 (a :: b :: (x ++ [t])) = x := by
  unfold pySlice
  have hlen : (a :: b :: (x ++ [t])).length - (2 + 1) = x.length := by
    simp only [List.length_cons, List.length_append, List.length_nil]
    omega
  rw [hlen]
  simp only [List.drop_succ_cons, List.drop_zero]
  exact List.take_left x [t]

/-- The post-processed reply for a well-classified body: `rawResponse`
drops CR bytes, renders LF as a literal backslash-n pair, and keeps the
trailing prompt marker. -/
theorem rawResponse_spec (body : List Char) (h : body.all respByteOk = true) :
    rawResponse (body ++ promptPat) = body.flatMap crlfEsc ++ promptPat := by
  have hq := reprQuote_resp body h
  have hm : promptPat.flatMap (pyByteEscape sqChar) = promptPat := by decide
  have hrepr : bytesRepr (body ++ promptPat) =
      'b' :: sqChar :: ((body.flatMap (pyByteEscape sqChar) ++ promptPat) ++ [sqChar]) := by
    simp only [bytesRepr, hq, List.flatMap_append, hm]
  unfold rawResponse
  rw [hrepr, pySlice_two_one]
  exact flatMap_escape_resp body h

/-! ## Running the transport -/

theorem iacEscape_eq_self (d : List Char) (h : iacChar ∉ d) : iacEscape d = d :=
  pyReplace_of_not_mem iacChar [] d _ h

theorem writesOf_append (a b : List TEvent) :
    writesOf (a ++ b) = writesOf a ++ writesOf b := by
  unfold writesOf
  exact List.filterMap_append ..

theorem splitAtPat_prompt_start (t : List Char) :
    splitAtPat promptPat (promptPat ++ t) = some ([], t) :=
  splitAtPat_at_start _ _ (by decide)

theorem splitAtPat_prompt_mid (body t : List Char) (hm : 'm' ∉ body) :
    splitAtPat promptPat (body ++ (promptPat ++ t)) = some (body, t) := by
  have hpp : promptPat = 'm' :: str "angos>" := by decide
  rw [hpp]
  have h := splitAtPat_first 'm' (str "angos>") body t hm
  simpa [List.append_assoc] using h

/-- A timed prompt wait on an open client always succeeds, consuming some
data and logging exactly one timed-read event. -/
theorem read_until_timeout_shape (pat : List Char) (c : TnClient)
    (hopen : c.sockOpen = true) :
    ∃ d rest, read_until_timeout pat c = .ok (d,
      { c with input := rest, events := c.events ++ [.readT d] }) := by
  unfold read_until_timeout
  rw [hopen]
  cases h : splitAtPat pat c.input with
  | some pr => exact ⟨pr.1 ++ pat, pr.2, by simp⟩
  | none => exact ⟨c.input, [], by simp⟩

/-- A blocking prompt wait on an open client succeeds, consuming some data
and logging exactly one blocking-read event. -/
theorem read_until_shape (pat : List Char) (c : TnClient)
    (hopen : c.sockOpen = true) :
    ∃ d rest, read_until pat c = .ok (d,
      { c with input := rest, events := c.events ++ [.readB d] }) := by
  unfold read_until
  rw [hopen]
  cases h : splitAtPat pat c.input with
  | some pr => exact ⟨pr.1 ++ pat, pr.2, by simp⟩
  | none => exact ⟨c.input, [], by simp⟩

/-- Full run of `execute_command` against a reply stream holding the two
prompts the flush consumes, the reply body, the closing prompt and
whatever follows. -/
theorem execute_command_run (cmd body rest : List Char) (c : TnClient)
    (hopen : c.sockOpen = true) (hm : 'm' ∉ body)
    (hin : c.input = promptPat ++ (promptPat ++ (body ++ (promptPat ++ rest)))) :
    execute_command cmd c = .ok (rawResponse (body ++ promptPat),
      { input := rest,
        events := c.events ++ [.readT promptPat, .wrote (str "\n"), .readB promptPat,
          .wrote (iacEscape cmd), .readB (body ++ promptPat)],
        sockOpen := true }) := by
  have hnl : iacEscape (str "\n") = str "\n" := by decide
  simp only [execute_command, wait_cli_prompt, read_until, read_until_timeout,
    twrite, hopen, hin, if_true, splitAtPat_prompt_start,
    splitAtPat_prompt_mid body _ hm, hnl, List.nil_append, bind, Except.bind, pure,
    Except.pure]
  simp [List.append_assoc]

/-! ## Digits, strip and `int` -/

theorem dropWhile_eq_self_of_false (p : Char → Bool) (l : List Char)
    (h : ∀ x ∈ l, p x = false) : l.dropWhile p = l := by
  cases l with
  | nil => rfl
  | cons x xs => simp [List.dropWhile_cons, h x (by simp)]

theorem pyStrip_eq_self (s : List Char) (h : ∀ x ∈ s, pySpace x = false) :
    pyStrip s = s := by
  unfold pyStrip
  rw [dropWhile_eq_self_of_false _ _ h,
    dropWhile_eq_self_of_false _ _ (fun x hx => h x (List.mem_reverse.mp hx))]
  exact List.reverse_reverse s

theorem isDigit_not_space (c : Char) (h : c.isDigit = true) : pySpace c = false := by
  cases hsp : pySpace c with
  | false => rfl
  | true =>
    exfalso
    simp only [pySpace, Bool.or_eq_true, decide_eq_true_eq] at hsp
    rcases hsp with ((((h1 | h2) | h3) | h4) | h5) | h6 <;>
      (subst_vars; exact absurd h (by decide))

theorem pyStrip_digits (ds : List Char) (h : ds.all (·.isDigit) = true) :
    pyStrip ds = ds :=
  pyStrip_eq_self ds (fun x hx => isDigit_not_space x (List.all_eq_true.mp h x hx))

theorem pyInt_digits (ds : List Char) (hne : ds ≠ [])
    (h : ds.all (·.isDigit) = true) : pyInt ds = some ((digitsNat ds : Nat) : Int) := by
  have hsign : ds.headD ' ' ≠ '-' ∧ ds.headD ' ' ≠ '+' := by
    cases ds with
    | nil => exact absurd rfl hne
    | cons d rest =>
      have hdig : d.isDigit = true := by
        simpa using List.all_eq_true.mp h d (by simp)
      refine ⟨fun he => ?_, fun he => ?_⟩ <;>
        (rw [List.headD_cons] at he; subst he; exact absurd hdig (by decide))
  have hemp : ¬(ds.isEmpty = true) := by
    cases ds with
    | nil => exact absurd rfl hne
    | cons d rest => simp
  unfold pyInt
  rw [pyStrip_digits ds h, if_neg hemp, if_neg hsign.1, if_neg hsign.2]
  unfold digitsToNatOpt
  rw [if_neg hemp, if_pos h]
  rfl

/-! ## The online-accounts table -/

/-- Assemble one pipe-delimited table row from its fields. -/
def mkRow (fs : List (List Char)) : List Char :=
  '|' :: (List.intercalate ['|'] fs ++ ['|'])

/-- A character allowed inside a table field: printable, not a pipe, not
`'m'` (so the prompt marker cannot occur inside the table body). -/
def fieldOk (f : List Char) : Bool :=
  f.all (fun c => plainByte c && !(c = '|') && !(c = 'm'))

/-- A structural-noise line of the reply (echo, header or trailing line). -/
def lineOk (l : List Char) : Bool :=
  l.all (fun c => plainByte c && !(c = 'm'))

/-- A well-formed online-accounts row: exactly six well-formed fields, the
first a nonempty digit string (the account id). -/
def rowOk (fs : List (List Char)) : Bool :=
  (fs.length = 6) && fs.all fieldOk && !(fs.headD []).isEmpty &&
    (fs.headD []).all (·.isDigit)

/-- A row whose fields are well formed but whose field count is arbitrary. -/
def rowFieldsOk (fs : List (List Char)) : Bool :=
  !fs.isEmpty && fs.all fieldOk

/-- The mapping entry `get_online_accounts` builds from a well-formed row. -/
def rowEntry (fs : List (List Char)) : List Char × Account :=
  (fs.headD [],
    { id := (digitsNat (fs.headD []) : Int),
      username := pyStrip (fs.getD 1 []),
      chars := pyStrip (fs.getD 2 []),
      ip := pyStrip (fs.getD 3 []),
      gm := pyStrip (fs.getD 4 []),
      expansion := pyStrip (fs.getD 5 []) })

/-- The reply lines of an online-accounts table: the echoed command line,
two header lines, the data rows, and one trailing line (the closing prompt
marker forms the second trailing line). -/
def tableLines (echo h1 h2 : List Char) (rows : List (List (List Char)))
    (t1 : List Char) : List (List Char) :=
  echo :: h1 :: h2 :: (rows.map mkRow ++ [t1])

/-- The raw reply-body bytes of an online-accounts table: each line
terminated by CRLF. -/
def tableRaw (echo h1 h2 : List Char) (rows : List (List (List Char)))
    (t1 : List Char) : List Char :=
  (tableLines echo h1 h2 rows t1).flatMap (fun l => l ++ [crChar, nlChar])

theorem rowOk_fieldsOk (fs : List (List Char)) (h : rowOk fs = true) :
    rowFieldsOk fs = true := by
  simp only [rowOk, Bool.and_eq_true, decide_eq_true_eq] at h
  have hne : ¬fs.isEmpty := by
    cases fs with
    | nil => simp at h
    | cons a l => simp
  simp [rowFieldsOk, hne, h.1.1.2]

theorem pySlice_one_one (a t : Char) (x : List Char) :
    pySlice 1 1 (a :: (x ++ [t])) = x := by
  unfold pySlice
  have hlen : (a :: (x ++ [t])).length - (1 + 1) = x.length := by
    simp only [List.length_cons, List.length_append, List.length_nil]
    omega
  rw [hlen]
  simp only [List.drop_succ_cons, List.drop_zero]
  exact List.take_left x [t]

theorem mem_intercalate (x : Char) (sep : List Char) :
    ∀ L : List (List Char), x ∈ List.intercalate sep L →
      x ∈ sep ∨ ∃ l ∈ L, x ∈ l := by
  intro L
  induction L with
  | nil => intro h; simp [List.intercalate] at h
  | cons a L ih =>
    cases L with
    | nil =>
      intro h
      right
      exact ⟨a, by simp, by simpa [List.intercalate] using h⟩
    | cons b L2 =>
      rw [intercalate_cons_cons]
      intro h
      rcases List.mem_append.mp h with h1 | h2
      · rcases List.mem_append.mp h1 with h3 | h4
        · exact Or.inr ⟨a, by simp, h3⟩
        · exact Or.inl h4
      · rcases ih h2 with h3 | ⟨l, hl, hxl⟩
        · exact Or.inl h3
        · exact Or.inr ⟨l, List.mem_cons_of_mem _ hl, hxl⟩

theorem mem_mkRow (c : Char) (fs : List (List Char)) (h : c ∈ mkRow fs) :
    c = '|' ∨ ∃ f ∈ fs, c ∈ f := by
  unfold mkRow at h
  rcases List.mem_cons.mp h with h | h
  · exact Or.inl h
  · rcases List.mem_append.mp h with h | h
    · rcases mem_intercalate c ['|'] fs h with h | h
      · exact Or.inl (by simpa using h)
      · exact Or.inr h
    · exact Or.inl (by simpa using h)

/-- Every character of a well-formed table line is printable and is not the
marker's first letter. -/
theorem tableLines_char (echo h1 h2 t1 : List Char)
    (rows : List (List (List Char)))
    (hecho : lineOk echo = true) (hh1 : lineOk h1 = true)
    (hh2 : lineOk h2 = true) (ht1 : lineOk t1 = true)
    (hrows : ∀ fs ∈ rows, fs.all fieldOk = true) :
    ∀ l ∈ tableLines echo h1 h2 rows t1, ∀ c ∈ l,
      plainByte c = true ∧ ¬(c = 'm') := by
  have hline : ∀ l : List Char, lineOk l = true → ∀ c ∈ l,
      plainByte c = true ∧ ¬(c = 'm') := by
    intro l hl c hc
    have := List.all_eq_true.mp hl c hc
    simp only [Bool.and_eq_true, Bool.not_eq_true', decide_eq_false_iff_not] at this
    exact this
  intro l hl c hc
  unfold tableLines at hl
  rcases List.mem_cons.mp hl with rfl | hl
  · exact hline l hecho c hc
  rcases List.mem_cons.mp hl with rfl | hl
  · exact hline l hh1 c hc
  rcases List.mem_cons.mp hl with rfl | hl
  · exact hline l hh2 c hc
  rcases List.mem_append.mp hl with hl | hl
  · rcases List.mem_map.mp hl with ⟨fs, hfs, rfl⟩
    rcases mem_mkRow c fs hc with rfl | ⟨f, hf, hcf⟩
    · exact ⟨by decide, by decide⟩
    · have := List.all_eq_true.mp (List.all_eq_true.mp (hrows fs hfs) f hf) c hcf
      simp only [Bool.and_eq_true, Bool.not_eq_true', decide_eq_false_iff_not] at this
      exact ⟨this.1.1, this.2⟩
  · have : l = t1 := by simpa using hl
    subst this
    exact hline l ht1 c hc

theorem tableRaw_all_resp (echo h1 h2 t1 : List Char)
    (rows : List (List (List Char)))
    (hchars : ∀ l ∈ tableLines echo h1 h2 rows t1, ∀ c ∈ l,
      plainByte c = true ∧ ¬(c = 'm')) :
    (tableRaw echo h1 h2 rows t1).all respByteOk = true := by
  rw [List.all_eq_true]
  intro c hc
  unfold tableRaw at hc
  rcases List.mem_flatMap.mp hc with ⟨l, hl, hcl⟩
  rcases List.mem_append.mp hcl with h | h
  · have := (hchars l hl c h).1
    simp [respByteOk, this]
  · rcases List.mem_cons.mp h with rfl | h
    · decide
    · have : c = nlChar := by simpa using h
      subst this
      decide

theorem tableRaw_no_m (echo h1 h2 t1 : List Char)
    (rows : List (List (List Char)))
    (hchars : ∀ l ∈ tableLines echo h1 h2 rows t1, ∀ c ∈ l,
      plainByte c = true ∧ ¬(c = 'm')) :
    'm' ∉ tableRaw echo h1 h2 rows t1 := by
  intro hc
  unfold tableRaw at hc
  rcases List.mem_flatMap.mp hc with ⟨l, hl, hcl⟩
  rcases List.mem_append.mp hcl with h | h
  · exact (hchars l hl 'm' h).2 rfl
  · rcases List.mem_cons.mp h with h | h
    · exact absurd h (by decide)
    · have : ('m' : Char) = nlChar := by simpa using h
      exact absurd this (by decide)

theorem crlfEsc_plain (c : Char) (h : plainByte c = true) : crlfEsc c = [c] := by
  simp only [plainByte, Bool.and_eq_true, decide_eq_true_eq] at h
  have hcr : ¬(c = crChar) := fun he => by
    rw [he] at h; exact absurd h.1.1.1.1 (by decide)
  have hnl : ¬(c = nlChar) := fun he => by
    rw [he] at h; exact absurd h.1.1.1.1 (by decide)
  simp [crlfEsc, hcr, hnl]

theorem flatMap_crlfEsc_plain (l : List Char) (h : ∀ c ∈ l, plainByte c = true) :
    l.flatMap crlfEsc = l := by
  induction l with
  | nil => rfl
  | cons c cs ih =>
    rw [List.flatMap_cons, crlfEsc_plain c (h c (by simp)),
      ih (fun x hx => h x (List.mem_cons_of_mem _ hx))]
    rfl

/-- Post-processing the table reply: CRLF line ends become literal
backslash-n pairs, line contents pass through. -/
theorem flatMap_crlfEsc_tableRaw (echo h1 h2 t1 : List Char)
    (rows : List (List (List Char)))
    (hchars : ∀ l ∈ tableLines echo h1 h2 rows t1, ∀ c ∈ l,
      plainByte c = true ∧ ¬(c = 'm')) :
    (tableRaw echo h1 h2 rows t1).flatMap crlfEsc =
      (tableLines echo h1 h2 rows t1).flatMap (fun l => l ++ [bsChar, 'n']) := by
  unfold tableRaw
  generalize hL : tableLines echo h1 h2 rows t1 = L at hchars ⊢
  clear hL
  induction L with
  | nil => rfl
  | cons l ls ih =>
    have e1 : crlfEsc crChar = ([] : List Char) := by decide
    have e2 : crlfEsc nlChar = [bsChar, 'n'] := by decide
    simp only [List.flatMap_cons, List.flatMap_append]
    rw [flatMap_crlfEsc_plain l (fun c hc => (hchars l (by simp) c hc).1),
      ih (fun l2 hl2 c hc => hchars l2 (List.mem_cons_of_mem _ hl2) c hc)]
    simp [e1, e2]

theorem flatMap_append_sep (sep : List Char) (lines : List (List Char))
    (last : List Char) :
    lines.flatMap (fun l => l ++ sep) ++ last =
      List.intercalate sep (lines ++ [last]) := by
  induction lines with
  | nil => simp [List.intercalate]
  | cons l ls ih =>
    cases hx : ls ++ [last] with
    | nil => exact absurd hx (by simp)
    | cons y ys =>
      rw [show (l :: ls) ++ [last] = l :: (ls ++ [last]) from rfl, hx,
        intercalate_cons_cons, ← hx, ← ih]
      simp [List.append_assoc]

theorem pySlice_three_two {α : Type} (a b c : α) (x : List α) (t u : α) :
    pySlice 3 2 (a :: b :: c :: (x ++ [t, u])) = x := by
  unfold pySlice
  have hlen : (a :: b :: c :: (x ++ [t, u])).length - (3 + 2) = x.length := by
    simp only [List.length_cons, List.length_append, List.length_nil]
    omega
  rw [hlen]
  simp only [List.drop_succ_cons, List.drop_zero]
  exact List.take_left x [t, u]

/-- Parsing a well-formed row yields its entry. -/
theorem parseOnlineAccountRow_ok (fs : List (List Char)) (h : rowOk fs = true) :
    parseOnlineAccountRow (mkRow fs) = .ok (rowEntry fs) := by
  simp only [rowOk, Bool.and_eq_true, Bool.not_eq_true', decide_eq_true_eq] at h
  obtain ⟨⟨⟨hlen, hflds⟩, hhd⟩, hdig⟩ := h
  have hhdne : fs.headD [] ≠ [] := by
    intro he
    rw [he] at hhd
    simp at hhd
  have hbar : ∀ f ∈ fs, '|' ∉ f := by
    intro f hf hbf
    have := List.all_eq_true.mp (List.all_eq_true.mp hflds f hf) '|' hbf
    simp at this
  have hsplit : pySplit ['|'] (pySlice 1 1 (mkRow fs)) = fs := by
    unfold mkRow
    rw [pySlice_one_one]
    exact pySplit_intercalate '|' [] fs (by intro he; rw [he] at hlen; simp at hlen) hbar
  unfold parseOnlineAccountRow
  rw [hsplit]
  obtain ⟨a, b, c, d, e, f, rfl⟩ :
      ∃ a b c d e f, fs = [a, b, c, d, e, f] := by
    rcases fs with _ | ⟨a, _ | ⟨b, _ | ⟨c, _ | ⟨d, _ | ⟨e, _ | ⟨f, _ | ⟨g, t⟩⟩⟩⟩⟩⟩⟩ <;>
      simp_all
  have hhd' : a ≠ [] := by simpa using hhdne
  have hdig' : a.all (·.isDigit) = true := by simpa using hdig
  simp only [pyInt_digits a hhd' hdig', rowEntry, pyStrip_digits a hdig']
  rfl

/-- Parsing a row whose field count is not six raises the arity error. -/
theorem parseOnlineAccountRow_bad (fs : List (List Char))
    (hfs : rowFieldsOk fs = true) (hlen : fs.length ≠ 6) :
    parseOnlineAccountRow (mkRow fs) = .error .valueError := by
  simp only [rowFieldsOk, Bool.and_eq_true, Bool.not_eq_true'] at hfs
  obtain ⟨hne0, hflds⟩ := hfs
  have hne : fs ≠ [] := by
    intro he
    rw [he] at hne0
    simp at hne0
  have hbar : ∀ f ∈ fs, '|' ∉ f := by
    intro f hf hbf
    have := List.all_eq_true.mp (List.all_eq_true.mp hflds f hf) '|' hbf
    simp at this
  have hsplit : pySplit ['|'] (pySlice 1 1 (mkRow fs)) = fs := by
    unfold mkRow
    rw [pySlice_one_one]
    exact pySplit_intercalate '|' [] fs hne hbar
  unfold parseOnlineAccountRow
  rw [hsplit]
  rcases fs with _ | ⟨a, _ | ⟨b, _ | ⟨c, _ | ⟨d, _ | ⟨e, _ | ⟨f, _ | ⟨g, t⟩⟩⟩⟩⟩⟩⟩ <;>
    first
      | rfl
      | (exfalso; exact hlen (by simp))

/-! ## The dict fold -/

theorem dictInsert_append (m : List (List Char × Account)) (k : List Char)
    (v : Account) (h : ∀ p ∈ m, p.1 ≠ k) : dictInsert m k v = m ++ [(k, v)] := by
  unfold dictInsert
  have : m.any (fun p => decide (p.1 = k)) = false := by
    rw [List.any_eq_false]
    intro p hp
    simp [h p hp]
  rw [this]
  simp

/-- The `get_online_accounts` loop over well-formed rows with fresh, unique
keys succeeds and appends the rows' entries in order. -/
theorem fold_rows_ok (rows : List (List (List Char))) :
    ∀ acc : List (List Char × Account),
      (∀ fs ∈ rows, rowOk fs = true) →
      (rows.map (fun fs => (rowEntry fs).1)).Nodup →
      (∀ fs ∈ rows, ∀ p ∈ acc, p.1 ≠ (rowEntry fs).1) →
      onlineRowsLoop acc (rows.map mkRow) = .ok (acc ++ rows.map rowEntry) := by
  induction rows with
  | nil => intro acc _ _ _; simp [onlineRowsLoop]
  | cons fs rows ih =>
    intro acc hok hnodup hfresh
    have hunf : onlineRowsLoop acc ((fs :: rows).map mkRow) =
        onlineRowsLoop (dictInsert acc (rowEntry fs).1 (rowEntry fs).2)
          (rows.map mkRow) := by
      rw [List.map_cons]
      show (match parseOnlineAccountRow (mkRow fs) with
        | Except.error e => Except.error e
        | Except.ok kv =>
          onlineRowsLoop (dictInsert acc kv.1 kv.2) (rows.map mkRow)) = _
      rw [parseOnlineAccountRow_ok fs (hok fs (by simp))]
    have hstep : dictInsert acc (rowEntry fs).1 (rowEntry fs).2 =
        acc ++ [rowEntry fs] :=
      dictInsert_append acc _ _ (fun p hp => hfresh fs (by simp) p hp)
    simp only [List.map_cons, List.nodup_cons] at hnodup
    rw [hunf, hstep, ih (acc ++ [rowEntry fs])
      (fun g hg => hok g (List.mem_cons_of_mem _ hg))
      hnodup.2
      (by
        intro g hg p hp
        rcases List.mem_append.mp hp with hp | hp
        · exact hfresh g (List.mem_cons_of_mem _ hg) p hp
        · have : p = rowEntry fs := by simpa using hp
          subst this
          intro he
          exact hnodup.1 (he ▸ List.mem_map_of_mem (fun fs => (rowEntry fs).1) hg))]
    simp [List.append_assoc]

/-- If some row fails to parse, the whole loop fails. -/
theorem fold_rows_error (rows : List (List Char)) :
    ∀ acc : List (List Char × Account),
      (∃ row ∈ rows, ∃ e, parseOnlineAccountRow row = .error e) →
      ∃ e, onlineRowsLoop acc rows = .error e := by
  induction rows with
  | nil => intro acc h; simp at h
  | cons r rows ih =>
    intro acc hbad
    cases hp : parseOnlineAccountRow r with
    | error e =>
      refine ⟨e, ?_⟩
      unfold onlineRowsLoop
      rw [hp]
    | ok kv =>
      rcases hbad with ⟨row, hrow, e, herr⟩
      rcases List.mem_cons.mp hrow with rfl | hrow
      · rw [hp] at herr; exact absurd herr (by simp)
      · obtain ⟨e2, h2⟩ := ih (dictInsert acc kv.1 kv.2) ⟨row, hrow, e, herr⟩
        refine ⟨e2, ?_⟩
        unfold onlineRowsLoop
        rw [hp]
        exact h2

/-! ## Composite runs -/

theorem except_bind_ok {α β : Type} (a : α) (f : α → Except PyError β) :
    (Except.ok a : Except PyError α) >>= f = f a := rfl

theorem except_bind_error {α β : Type} (e : PyError) (f : α → Except PyError β) :
    (Except.error e : Except PyError α) >>= f = Except.error e := rfl

theorem splitAtPat_generic_mid (pat : List Char) (p : Char) (ps : List Char)
    (hpat : pat = p :: ps) (pre t : List Char) (hpre : p ∉ pre) :
    splitAtPat pat (pre ++ (pat ++ t)) = some (pre, t) := by
  subst hpat
  have h := splitAtPat_first p ps pre t hpre
  simpa [List.append_assoc] using h

/-- Full run of `connect` against a stream carrying the two credential
prompts and the prompt markers the flush consumes. -/
theorem connect_run (user pwd a b e1 e2 rest : List Char) (c : TnClient)
    (hopen : c.sockOpen = true)
    (hU : 'U' ∉ a) (hP : 'P' ∉ b) (h1 : 'm' ∉ e1) (h2 : 'm' ∉ e2)
    (hin : c.input = a ++ (str "Username:" ++ (b ++ (str "Password:" ++
      (e1 ++ (promptPat ++ (e2 ++ (promptPat ++ rest)))))))) :
    connect user pwd c = .ok
      { input := rest,
        events := c.events ++ [.readB (a ++ str "Username:"),
          .wrote (iacEscape (user ++ str " \n")),
          .readB (b ++ str "Password:"),
          .wrote (iacEscape (pwd ++ str " \n")),
          .readT (e1 ++ promptPat), .wrote (str "\n"),
          .readB (e2 ++ promptPat)],
        sockOpen := true } := by
  have hnl : iacEscape (str "\n") = str "\n" := by decide
  have sU : splitAtPat (str "Username:") (a ++ (str "Username:" ++ (b ++
      (str "Password:" ++ (e1 ++ (promptPat ++ (e2 ++ (promptPat ++ rest)))))))) =
      some (a, b ++ (str "Password:" ++ (e1 ++ (promptPat ++
        (e2 ++ (promptPat ++ rest)))))) :=
    splitAtPat_generic_mid _ 'U' (str "sername:") (by decide) a _ hU
  have sP : splitAtPat (str "Password:") (b ++ (str "Password:" ++ (e1 ++
      (promptPat ++ (e2 ++ (promptPat ++ rest)))))) =
      some (b, e1 ++ (promptPat ++ (e2 ++ (promptPat ++ rest)))) :=
    splitAtPat_generic_mid _ 'P' (str "assword:") (by decide) b _ hP
  have sM1 : splitAtPat promptPat (e1 ++ (promptPat ++ (e2 ++
      (promptPat ++ rest)))) = some (e1, e2 ++ (promptPat ++ rest)) :=
    splitAtPat_prompt_mid e1 _ h1
  have sM2 : splitAtPat promptPat (e2 ++ (promptPat ++ rest)) = some (e2, rest) :=
    splitAtPat_prompt_mid e2 _ h2
  simp only [connect, wait_cli_prompt, read_until, read_until_timeout, twrite,
    hopen, hin, if_true, sU, sP, sM1, sM2, hnl, bind, Except.bind, pure, Except.pure]
  simp [List.append_assoc]

/-- One `wait_cli_prompt` on an open client: a timed read, the lone bare
newline write and a blocking read whose data is discarded. -/
theorem wait_cli_prompt_shape (c : TnClient) (hopen : c.sockOpen = true) :
    ∃ d1 d2 rest, wait_cli_prompt c = .ok
      { input := rest,
        events := c.events ++ [.readT d1, .wrote (str "\n"), .readB d2],
        sockOpen := true } := by
  have hnl : iacEscape (str "\n") = str "\n" := by decide
  have hs0 : splitAtPat promptPat ([] : List Char) = none := rfl
  cases hs1 : splitAtPat promptPat c.input with
  | some pr1 =>
    obtain ⟨p1, r1⟩ := pr1
    cases hs2 : splitAtPat promptPat r1 with
    | some pr2 =>
      obtain ⟨p2, r2⟩ := pr2
      exact ⟨p1 ++ promptPat, p2 ++ promptPat, r2, by
        simp [wait_cli_prompt, read_until, read_until_timeout, twrite, hopen,
          hs1, hs2, hnl, except_bind_ok, pure, Except.pure, List.append_assoc]⟩
    | none =>
      exact ⟨p1 ++ promptPat, r1, [], by
        simp [wait_cli_prompt, read_until, read_until_timeout, twrite, hopen,
          hs1, hs2, hnl, except_bind_ok, pure, Except.pure, List.append_assoc]⟩
  | none =>
    exact ⟨c.input, [], [], by
      simp [wait_cli_prompt, read_until, read_until_timeout, twrite, hopen,
        hs1, hs0, hnl, except_bind_ok, pure, Except.pure, List.append_assoc]⟩

/-- Splitting the post-processed table reply recovers the reply lines plus
the prompt-marker line. -/
theorem table_split (echo h1 h2 t1 : List Char) (rows : List (List (List Char)))
    (hchars : ∀ l ∈ tableLines echo h1 h2 rows t1, ∀ c ∈ l,
      plainByte c = true ∧ ¬(c = 'm')) :
    pySplit [bsChar, 'n'] (rawResponse (tableRaw echo h1 h2 rows t1 ++ promptPat)) =
      tableLines echo h1 h2 rows t1 ++ [promptPat] := by
  rw [rawResponse_spec _ (tableRaw_all_resp echo h1 h2 t1 rows hchars),
    flatMap_crlfEsc_tableRaw echo h1 h2 t1 rows hchars,
    flatMap_append_sep [bsChar, 'n'] (tableLines echo h1 h2 rows t1) promptPat]
  refine pySplit_intercalate bsChar ['n'] _ (by simp) ?_
  intro l hl hbs
  rcases List.mem_append.mp hl with hl | hl
  · have := (hchars l hl bsChar hbs).1
    simp only [plainByte, Bool.and_eq_true, Bool.not_eq_true',
      decide_eq_false_iff_not] at this
    exact this.1.1.2 trivial
  · have : l = promptPat := by simpa using hl
    subst this
    exact absurd hbs (by decide)

/-- Dropping the three leading and two trailing reply lines leaves the rows. -/
theorem table_slice (echo h1 h2 t1 : List Char) (rows : List (List (List Char))) :
    pySlice 3 2 (tableLines echo h1 h2 rows t1 ++ [promptPat]) = rows.map mkRow := by
  unfold tableLines
  rw [show (echo :: h1 :: h2 :: (rows.map mkRow ++ [t1])) ++ [promptPat] =
    echo :: h1 :: h2 :: (rows.map mkRow ++ [t1, promptPat]) by simp]
  exact pySlice_three_two echo h1 h2 (rows.map mkRow) t1 promptPat

/-- Extract from `rowOk` the per-field well-formedness. -/
theorem rowOk_all_fieldOk (fs : List (List Char)) (h : rowOk fs = true) :
    fs.all fieldOk = true := by
  simp only [rowOk, Bool.and_eq_true] at h
  exact h.1.1.2

/-- Full run of `get_online_accounts` over a well-formed table reply. -/
theorem get_online_accounts_table (echo h1 h2 t1 : List Char)
    (rows : List (List (List Char))) (rest : List Char) (c : TnClient)
    (hecho : lineOk echo = true) (hh1 : lineOk h1 = true)
    (hh2 : lineOk h2 = true) (ht1 : lineOk t1 = true)
    (hrows : ∀ fs ∈ rows, rowOk fs = true)
    (hkeys : (rows.map (fun fs => fs.headD [])).Nodup)
    (hopen : c.sockOpen = true)
    (hin : c.input = promptPat ++ (promptPat ++
      (tableRaw echo h1 h2 rows t1 ++ (promptPat ++ rest)))) :
    ∃ c', get_online_accounts c = .ok (rows.map rowEntry, c') := by
  have hchars := tableLines_char echo h1 h2 t1 rows hecho hh1 hh2 ht1
    (fun fs hfs => rowOk_all_fieldOk fs (hrows fs hfs))
  have hrun := execute_command_run (str "account onlinelist \n")
    (tableRaw echo h1 h2 rows t1) rest c hopen
    (tableRaw_no_m echo h1 h2 t1 rows hchars) hin
  have hkeys' : (rows.map (fun fs => (rowEntry fs).1)).Nodup := by
    simpa [rowEntry] using hkeys
  have hfold := fold_rows_ok rows [] hrows hkeys' (by intro fs _ p hp; simp at hp)
  have hmain : get_online_accounts c = .ok (rows.map rowEntry,
      { input := rest,
        events := c.events ++ [.readT promptPat, .wrote (str "\n"), .readB promptPat,
          .wrote (iacEscape (str "account onlinelist \n")),
          .readB (tableRaw echo h1 h2 rows t1 ++ promptPat)],
        sockOpen := true }) := by
    unfold get_online_accounts
    rw [hrun, except_bind_ok]
    simp only [table_split echo h1 h2 t1 rows hchars,
      table_slice echo h1 h2 t1 rows, hfold, except_bind_ok]
    rfl
  exact ⟨_, hmain⟩

/-- Full run of `get_online_accounts` over a table reply containing a row
of the wrong arity: the parse fails. -/
theorem get_online_accounts_malformed (echo h1 h2 t1 : List Char)
    (rows : List (List (List Char))) (rest : List Char) (c : TnClient)
    (hecho : lineOk echo = true) (hh1 : lineOk h1 = true)
    (hh2 : lineOk h2 = true) (ht1 : lineOk t1 = true)
    (hrows : ∀ fs ∈ rows, rowFieldsOk fs = true)
    (hbad : ∃ fs ∈ rows, fs.length ≠ 6)
    (hopen : c.sockOpen = true)
    (hin : c.input = promptPat ++ (promptPat ++
      (tableRaw echo h1 h2 rows t1 ++ (promptPat ++ rest)))) :
    ∃ e, get_online_accounts c = .error e := by
  have hchars := tableLines_char echo h1 h2 t1 rows hecho hh1 hh2 ht1
    (fun fs hfs => by
      have := hrows fs hfs
      simp only [rowFieldsOk, Bool.and_eq_true] at this
      exact this.2)
  have hrun := execute_command_run (str "account onlinelist \n")
    (tableRaw echo h1 h2 rows t1) rest c hopen
    (tableRaw_no_m echo h1 h2 t1 rows hchars) hin
  obtain ⟨fs, hfs, hlen⟩ := hbad
  have hfold := fold_rows_error (rows.map mkRow) []
    ⟨mkRow fs, List.mem_map_of_mem mkRow hfs,
      .valueError, parseOnlineAccountRow_bad fs (hrows fs hfs) hlen⟩
  obtain ⟨e, he⟩ := hfold
  refine ⟨e, ?_⟩
  unfold get_online_accounts
  rw [hrun, except_bind_ok]
  simp only [table_split echo h1 h2 t1 rows hchars,
    table_slice echo h1 h2 t1 rows, he, except_bind_error]

/-- Every successful `execute_command` on an open client logs exactly the
flush newline and the verbatim command string as its writes. -/
theorem execute_command_shape (cmd : List Char) (c : TnClient)
    (hopen : c.sockOpen = true) :
    ∃ res d1 d2 d3 rest, execute_command cmd c = .ok (res,
      { input := rest,
        events := c.events ++ [.readT d1, .wrote (str "\n"), .readB d2,
          .wrote (iacEscape cmd), .readB d3],
        sockOpen := true }) := by
  obtain ⟨d1, d2, r, h⟩ := wait_cli_prompt_shape c hopen
  obtain ⟨d3, r3, h3⟩ := read_until_shape promptPat
    { input := r,
      events := (c.events ++ [.readT d1, .wrote (str "\n"), .readB d2]) ++
        [.wrote (iacEscape cmd)],
      sockOpen := true } rfl
  refine ⟨rawResponse d3, d1, d2, d3, r3, ?_⟩
  have htw : twrite cmd
      { input := r,
        events := c.events ++ [.readT d1, .wrote (str "\n"), .readB d2],
        sockOpen := true } =
      .ok { input := r,
            events := (c.events ++ [.readT d1, .wrote (str "\n"), .readB d2]) ++
              [.wrote (iacEscape cmd)],
            sockOpen := true } := rfl
  unfold execute_command
  rw [h, except_bind_ok, htw, except_bind_ok, h3, except_bind_ok]
  simp [pure, Except.pure, List.append_assoc]

/-- Prepending a character preserves pattern-occurrence. -/
theorem splitAtPat_isSome_cons (pat : List Char) (c : Char) (s : List Char)
    (h : (splitAtPat pat s).isSome = true) :
    (splitAtPat pat (c :: s)).isSome = true := by
  simp only [splitAtPat]
  split
  · rfl
  · cases hsp : splitAtPat pat s with
    | none => rw [hsp] at h; simp at h
    | some pr => simp [hsp]

/-- A string that has an occurrence of a nonempty pattern is split by it. -/
theorem splitAtPat_isSome_append (sub : List Char) (hs : sub ≠ []) :
    ∀ pre post, (splitAtPat sub (pre ++ (sub ++ post))).isSome = true := by
  intro pre
  induction pre with
  | nil =>
    intro post
    simp only [List.nil_append]
    rw [show sub ++ post = sub ++ post from rfl, splitAtPat_at_start sub post hs]
    rfl
  | cons c cs ih =>
    intro post
    rw [show (c :: cs) ++ (sub ++ post) = c :: (cs ++ (sub ++ post)) from rfl]
    exact splitAtPat_isSome_cons sub c _ (ih post)

/-- Substring semantics of `pyContains`: it is exactly the existence of a
decomposition around the pattern. -/
theorem pyContains_iff (sub s : List Char) :
    pyContains sub s = true ↔ ∃ pre post, s = pre ++ (sub ++ post) := by
  unfold pyContains
  by_cases h : sub.length = 0
  · have hsub : sub = [] := List.length_eq_zero.mp h
    subst hsub
    refine iff_of_true rfl ⟨[], s, by simp⟩
  · rw [if_neg h]
    constructor
    · intro hsome
      obtain ⟨pr, hpr⟩ := Option.isSome_iff_exists.mp hsome
      obtain ⟨pre, rest⟩ := pr
      exact ⟨pre, rest,
        by simpa [List.append_assoc] using splitAtPat_eq_append sub s pre rest hpr⟩
    · rintro ⟨pre, post, rfl⟩
      exact splitAtPat_isSome_append sub (fun he => h (by simp [he])) pre post

/-! ## Claims -/

/-- C1 (counterexample): the claim says the value returned by
`execute_command` excludes the literal prompt marker; in fact the slicing
`str(raw)[2:-1]` removes only the bytes-`repr` wrapper, so for the concrete
reply stream below the returned text is `Version\\nmangos>` — it contains
(and ends with) the literal marker `mangos>`. -/
theorem execute_command_keeps_marker_cex :
    (execute_command (str "account version \n")
        { input := str "mangos>mangos>Version" ++ [crChar, nlChar] ++ str "mangos>",
          events := [], sockOpen := true }).toOption.map (fun p => p.1) =
      some (str "Version" ++ [bsChar, 'n'] ++ str "mangos>") ∧
    pyContains (str "mangos>") (str "Version" ++ [bsChar, 'n'] ++ str "mangos>") =
      true := by
  decide

/-- C1 (amended): for every reply read from the transport whose body is made
of printable bytes, CR and LF, the value `execute_command` returns is the
body with CR characters removed and each LF rendered as a literal
backslash-n pair, followed by the literal prompt marker `mangos>` — the
marker is retained, not excluded. -/
theorem execute_command_response_shape (cmd body rest : List Char) (c : TnClient)
    (hopen : c.sockOpen = true) (hresp : body.all respByteOk = true)
    (hm : 'm' ∉ body)
    (hin : c.input = promptPat ++ (promptPat ++ (body ++ (promptPat ++ rest)))) :
    ∃ c', execute_command cmd c = .ok (body.flatMap crlfEsc ++ promptPat, c') := by
  have h := execute_command_run cmd body rest c hopen hm hin
  rw [rawResponse_spec body hresp] at h
  exact ⟨_, h⟩

/-- C1 (witness): the amended theorem evaluated on a concrete session whose
reply body is `Hello` followed by CRLF. -/
theorem execute_command_response_shape_witness :
    (∃ c', execute_command (str "account version \n")
        { input := promptPat ++ (promptPat ++ ((str "Hello" ++ [crChar, nlChar]) ++
            (promptPat ++ []))),
          events := [], sockOpen := true } =
        .ok ((str "Hello" ++ [crChar, nlChar]).flatMap crlfEsc ++ promptPat, c')) ∧
    (str "Hello" ++ [crChar, nlChar]).flatMap crlfEsc ++ promptPat =
      str "Hello" ++ [bsChar, 'n'] ++ str "mangos>" :=
  ⟨execute_command_response_shape (str "account version \n")
      (str "Hello" ++ [crChar, nlChar]) [] _ rfl (by decide) (by decide) rfl,
    by decide⟩

/-- C2: for every well-formed online-accounts table reply — an echo line,
two header lines, `R` well-formed data rows with unique first fields, one
trailing line and the closing prompt line — `get_online_accounts` succeeds
and returns exactly the `R` row entries, keyed by the rows' first fields,
in row order (and therefore zero entries, without an exception, when
`R = 0`). -/
theorem get_online_accounts_roundtrip (echo h1 h2 t1 : List Char)
    (rows : List (List (List Char))) (rest : List Char) (c : TnClient)
    (hecho : lineOk echo = true) (hh1 : lineOk h1 = true)
    (hh2 : lineOk h2 = true) (ht1 : lineOk t1 = true)
    (hrows : ∀ fs ∈ rows, rowOk fs = true)
    (hkeys : (rows.map (fun fs => fs.headD [])).Nodup)
    (hopen : c.sockOpen = true)
    (hin : c.input = promptPat ++ (promptPat ++
      (tableRaw echo h1 h2 rows t1 ++ (promptPat ++ rest)))) :
    ∃ c', get_online_accounts c = .ok (rows.map rowEntry, c') ∧
      (rows.map rowEntry).length = rows.length ∧
      (rows.map rowEntry).map Prod.fst = rows.map (fun fs => fs.headD []) := by
  obtain ⟨c', h⟩ := get_online_accounts_table echo h1 h2 t1 rows rest c
    hecho hh1 hh2 ht1 hrows hkeys hopen hin
  exact ⟨c', h, by simp, by simp [rowEntry]⟩

/-- C2 (witness): the documented scenario — echo line, 2 header lines, the
2 data rows `|1|alice|...|` and `|2|bob|...|`, 2 trailing lines — yields the
2-entry mapping keyed `1` and `2` with usernames `alice` and `bob`. -/
theorem get_online_accounts_roundtrip_witness :
    (∃ c', get_online_accounts
        { input := promptPat ++ (promptPat ++
            (tableRaw (str "account onlinelist") (str "=========")
              (str "|ID|Login|Chars|IP|GM|Exp|")
              [[str "1", str "alice", str "char1", str "1.2.3.4", str "0", str "1"],
               [str "2", str "bob", str "char2", str "5.6.7.8", str "1", str "2"]]
              (str "=========") ++ (promptPat ++ []))),
          events := [], sockOpen := true } =
      .ok (([[str "1", str "alice", str "char1", str "1.2.3.4", str "0", str "1"],
            [str "2", str "bob", str "char2", str "5.6.7.8", str "1", str "2"]] :
          List (List (List Char))).map rowEntry, c') ∧
      (([[str "1", str "alice", str "char1", str "1.2.3.4", str "0", str "1"],
         [str "2", str "bob", str "char2", str "5.6.7.8", str "1", str "2"]] :
          List (List (List Char))).map rowEntry).length =
        ([[str "1", str "alice", str "char1", str "1.2.3.4", str "0", str "1"],
          [str "2", str "bob", str "char2", str "5.6.7.8", str "1", str "2"]] :
          List (List (List Char))).length ∧
      (([[str "1", str "alice", str "char1", str "1.2.3.4", str "0", str "1"],
         [str "2", str "bob", str "char2", str "5.6.7.8", str "1", str "2"]] :
          List (List (List Char))).map rowEntry).map Prod.fst =
        ([[str "1", str "alice", str "char1", str "1.2.3.4", str "0", str "1"],
          [str "2", str "bob", str "char2", str "5.6.7.8", str "1", str "2"]] :
          List (List (List Char))).map (fun fs => fs.headD [])) ∧
    ([[str "1", str "alice", str "char1", str "1.2.3.4", str "0", str "1"],
      [str "2", str "bob", str "char2", str "5.6.7.8", str "1", str "2"]] :
        List (List (List Char))).map rowEntry =
      [(str "1",
        { id := 1, username := str "alice", chars := str "char1",
          ip := str "1.2.3.4", gm := str "0", expansion := str "1" }),
       (str "2",
        { id := 2, username := str "bob", chars := str "char2",
          ip := str "5.6.7.8", gm := str "1", expansion := str "2" })] :=
  ⟨get_online_accounts_roundtrip (str "account onlinelist") (str "=========")
      (str "|ID|Login|Chars|IP|GM|Exp|") (str "=========")
      [[str "1", str "alice", str "char1", str "1.2.3.4", str "0", str "1"],
       [str "2", str "bob", str "char2", str "5.6.7.8", str "1", str "2"]]
      [] _ (by decide) (by decide) (by decide) (by decide) (by decide) (by decide)
      rfl rfl,
    by decide⟩

/-- C3: for every table reply with `R ≥ 1` data rows of which at least one
has a field count different from the expected six, `get_online_accounts`
fails with an error (the unpacking `ValueError`, the spec's
`MalformedRowError`) rather than dropping the short row and returning a
mapping. -/
theorem get_online_accounts_rejects_short_row (echo h1 h2 t1 : List Char)
    (rows : List (List (List Char))) (rest : List Char) (c : TnClient)
    (hecho : lineOk echo = true) (hh1 : lineOk h1 = true)
    (hh2 : lineOk h2 = true) (ht1 : lineOk t1 = true)
    (hrows : ∀ fs ∈ rows, rowFieldsOk fs = true)
    (_hR : rows ≠ [])
    (hbad : ∃ fs ∈ rows, fs.length ≠ 6)
    (hopen : c.sockOpen = true)
    (hin : c.input = promptPat ++ (promptPat ++
      (tableRaw echo h1 h2 rows t1 ++ (promptPat ++ rest)))) :
    ∃ e, get_online_accounts c = .error e :=
  get_online_accounts_malformed echo h1 h2 t1 rows rest c
    hecho hh1 hh2 ht1 hrows hbad hopen hin

/-- C3 (witness): a table holding one good row and one four-field row; the
run is also evaluated concretely, showing the `ValueError`. -/
theorem get_online_accounts_rejects_short_row_witness :
    (∃ e, get_online_accounts
        { input := promptPat ++ (promptPat ++
            (tableRaw (str "account onlinelist") (str "=========")
              (str "|ID|Login|Chars|IP|GM|Exp|")
              [[str "1", str "alice", str "char1", str "1.2.3.4", str "0", str "1"],
               [str "2", str "bob", str "char2"]]
              (str "=========") ++ (promptPat ++ []))),
          events := [], sockOpen := true } = .error e) ∧
    (get_online_accounts
        { input := promptPat ++ (promptPat ++
            (tableRaw (str "account onlinelist") (str "=========")
              (str "|ID|Login|Chars|IP|GM|Exp|")
              [[str "1", str "alice", str "char1", str "1.2.3.4", str "0", str "1"],
               [str "2", str "bob", str "char2"]]
              (str "=========") ++ (promptPat ++ []))),
          events := [], sockOpen := true }).toOption = none :=
  ⟨get_online_accounts_rejects_short_row (str "account onlinelist")
      (str "=========") (str "|ID|Login|Chars|IP|GM|Exp|") (str "=========")
      [[str "1", str "alice", str "char1", str "1.2.3.4", str "0", str "1"],
       [str "2", str "bob", str "char2"]]
      [] _ (by decide) (by decide) (by decide) (by decide) (by decide)
      (by decide) ⟨[str "2", str "bob", str "char2"], by decide, by decide⟩
      rfl rfl,
    by decide⟩

/-- C4: the delete-account sentinel parse is case-sensitive and
substring-based — `account_delete` returns the containment test of the
exact phrase `Account deleted:` over the raw response; any text containing
the phrase anywhere yields `true`, any text with no occurrence yields
`false`; in particular `Account deleted: bob` yields `true`,
`Account not found` yields `false`, and the lowercased phrase does not
match. -/
theorem account_delete_sentinel :
    (∀ u c, account_delete u c =
      (execute_command (str "account delete " ++ u ++ str " \n") c).map
        (fun p => (pyContains (str "Account deleted:") p.1, p.2))) ∧
    (∀ pre post, pyContains (str "Account deleted:")
        (pre ++ (str "Account deleted:" ++ post)) = true) ∧
    (∀ text, (¬ ∃ pre post, text = pre ++ (str "Account deleted:" ++ post)) →
        pyContains (str "Account deleted:") text = false) ∧
    pyContains (str "Account deleted:") (str "Account deleted: bob") = true ∧
    pyContains (str "Account deleted:") (str "Account not found") = false ∧
    pyContains (str "Account deleted:") (str "account deleted: bob") = false := by
  refine ⟨?_, ?_, ?_, by decide, by decide, by decide⟩
  · intro u c
    unfold account_delete
    cases h : execute_command (str "account delete " ++ u ++ str " \n") c with
    | error e => rfl
    | ok p => rfl
  · intro pre post
    exact (pyContains_iff _ _).mpr ⟨pre, post, rfl⟩
  · intro text hno
    cases hc : pyContains (str "Account deleted:") text with
    | false => rfl
    | true => exact absurd ((pyContains_iff _ _).mp hc) hno

/-- C4 (witness): the no-occurrence clause applied to the concrete text
`xyz`. -/
theorem account_delete_sentinel_witness :
    pyContains (str "Account deleted:") (str "xyz") = false :=
  account_delete_sentinel.2.2.1 (str "xyz") (fun hex =>
    absurd ((pyContains_iff (str "Account deleted:") (str "xyz")).mpr hex)
      (by decide))

/-- C5: the login handshake writes `user ++ " \n"` only after the read that
observed the literal `Username:`, then writes `pwd ++ " \n"` only after the
read that observed `Password:`, then synchronizes the prompt; after the
final prompt marker is observed the session's stream position is right
behind that marker (prompt-ready). -/
theorem connect_handshake (user pwd a b e1 e2 rest : List Char) (c : TnClient)
    (hopen : c.sockOpen = true)
    (hU : 'U' ∉ a) (hP : 'P' ∉ b) (h1 : 'm' ∉ e1) (h2 : 'm' ∉ e2)
    (hiu : iacChar ∉ user) (hip : iacChar ∉ pwd)
    (hin : c.input = a ++ (str "Username:" ++ (b ++ (str "Password:" ++
      (e1 ++ (promptPat ++ (e2 ++ (promptPat ++ rest)))))))) :
    connect user pwd c = .ok
      { input := rest,
        events := c.events ++ [.readB (a ++ str "Username:"),
          .wrote (user ++ str " \n"), .readB (b ++ str "Password:"),
          .wrote (pwd ++ str " \n"), .readT (e1 ++ promptPat),
          .wrote (str "\n"), .readB (e2 ++ promptPat)],
        sockOpen := true } := by
  have hu : iacEscape (user ++ str " \n") = user ++ str " \n" :=
    iacEscape_eq_self _ (fun hmem => by
      rcases List.mem_append.mp hmem with hmem | hmem
      · exact hiu hmem
      · exact absurd hmem (by decide))
  have hp2 : iacEscape (pwd ++ str " \n") = pwd ++ str " \n" :=
    iacEscape_eq_self _ (fun hmem => by
      rcases List.mem_append.mp hmem with hmem | hmem
      · exact hip hmem
      · exact absurd hmem (by decide))
  rw [← hu, ← hp2]
  exact connect_run user pwd a b e1 e2 rest c hopen hU hP h1 h2 hin

/-- C5 (witness): the documented login scenario `Username:` → `admin \n` →
`Password:` → `secret \n` → prompt markers. -/
theorem connect_handshake_witness :
    connect (str "admin") (str "secret")
      { input := [] ++ (str "Username:" ++ ([] ++ (str "Password:" ++
          ([] ++ (promptPat ++ ([] ++ (promptPat ++ []))))))),
        events := [], sockOpen := true } = .ok
      { input := [],
        events := [] ++ [.readB ([] ++ str "Username:"),
          .wrote (str "admin" ++ str " \n"), .readB ([] ++ str "Password:"),
          .wrote (str "secret" ++ str " \n"), .readT ([] ++ promptPat),
          .wrote (str "\n"), .readB ([] ++ promptPat)],
        sockOpen := true } :=
  connect_handshake (str "admin") (str "secret") [] [] [] [] [] _ rfl
    (by decide) (by decide) (by decide) (by decide) (by decide) (by decide) rfl

/-- C6: `wait_cli_prompt` performs, in order, a timed prompt wait whose
expiry is not an error, a write of a single bare newline (its only write),
and a blocking prompt wait whose data is discarded; calling it twice in a
row sends exactly one flush newline per call and nothing else. -/
theorem wait_cli_prompt_flush (c : TnClient) (hopen : c.sockOpen = true) :
    ∃ c' d1 d2, wait_cli_prompt c = .ok c' ∧
      c'.events = c.events ++ [.readT d1, .wrote (str "\n"), .readB d2] ∧
      c'.sockOpen = true ∧
      writesOf c'.events = writesOf c.events ++ [str "\n"] ∧
      ∃ c'' d3 d4, wait_cli_prompt c' = .ok c'' ∧
        c''.events = c'.events ++ [.readT d3, .wrote (str "\n"), .readB d4] ∧
        writesOf c''.events = writesOf c.events ++ [str "\n", str "\n"] := by
  obtain ⟨d1, d2, r, h⟩ := wait_cli_prompt_shape c hopen
  refine ⟨_, d1, d2, h, rfl, rfl, ?_, ?_⟩
  · rw [writesOf_append]
    rfl
  · obtain ⟨d3, d4, r2, h2⟩ := wait_cli_prompt_shape
      { input := r,
        events := c.events ++ [.readT d1, .wrote (str "\n"), .readB d2],
        sockOpen := true } rfl
    refine ⟨_, d3, d4, h2, rfl, ?_⟩
    simp [writesOf_append, writesOf, List.filterMap_cons]

/-- C6 (witness): the flush theorem evaluated on a concrete open session. -/
theorem wait_cli_prompt_flush_witness :
    ∃ c' d1 d2, wait_cli_prompt
        { input := str "mangos>mangos>mangos>mangos>", events := [],
          sockOpen := true } = .ok c' ∧
      c'.events = [] ++ [.readT d1, .wrote (str "\n"), .readB d2] ∧
      c'.sockOpen = true ∧
      writesOf c'.events = writesOf [] ++ [str "\n"] ∧
      ∃ c'' d3 d4, wait_cli_prompt c' = .ok c'' ∧
        c''.events = c'.events ++ [.readT d3, .wrote (str "\n"), .readB d4] ∧
        writesOf c''.events = writesOf [] ++ [str "\n", str "\n"] :=
  wait_cli_prompt_flush
    { input := str "mangos>mangos>mangos>mangos>", events := [],
      sockOpen := true } rfl

/-- C7 (counterexample): the claim says `execute_command` itself terminates
the outbound line with a newline; on the concrete command `account version`
the bytes written are the flush newline followed by the verbatim command,
which does not end in a newline — the terminator comes from the caller. -/
theorem execute_command_no_added_newline_cex :
    (execute_command (str "account version")
        { input := str "mangos>mangos>mangos>", events := [],
          sockOpen := true }).toOption.map (fun p => writesOf p.2.events) =
      some [str "\n", str "account version"] ∧
    (str "account version").getLast? ≠ some nlChar := by
  decide

/-- C7 (amended): `execute_command` writes `commandText` to the transport
verbatim — its only write beyond the flush newline — and the command
strings built by the catalog (e.g. `account_create`) carry the single
trailing newline themselves, with no embedded newline. -/
theorem execute_command_writes_verbatim (cmd : List Char) (c : TnClient)
    (hopen : c.sockOpen = true) (hiac : iacChar ∉ cmd) :
    (∃ res c', execute_command cmd c = .ok (res, c') ∧
      writesOf c'.events = writesOf c.events ++ [str "\n", cmd]) ∧
    (∀ u p, nlChar ∉ u → nlChar ∉ p →
      ∃ t, account_create_command u p = t ++ [nlChar] ∧ nlChar ∉ t) := by
  constructor
  · obtain ⟨res, d1, d2, d3, rest, h⟩ := execute_command_shape cmd c hopen
    refine ⟨res, _, h, ?_⟩
    rw [iacEscape_eq_self cmd hiac] at h ⊢
    simp [writesOf_append, writesOf, List.filterMap_cons]
  · intro u p hu hp
    refine ⟨str "account create " ++ u ++ (str " " ++ (p ++ [' '])), ?_, ?_⟩
    · have hsp : str " \n" = [' '] ++ [nlChar] := by decide
      simp [account_create_command, hsp, List.append_assoc]
    · intro hmem
      rcases List.mem_append.mp hmem with hmem | hmem
      · rcases List.mem_append.mp hmem with hmem | hmem
        · exact absurd hmem (by decide)
        · exact hu hmem
      · rcases List.mem_append.mp hmem with hmem | hmem
        · exact absurd hmem (by decide)
        · rcases List.mem_append.mp hmem with hmem | hmem
          · exact hp hmem
          · exact absurd hmem (by decide)

/-- C7 (witness): the amended theorem evaluated for the `account version`
command on a concrete session, and the builder clause for
`account_create bob hunter2`. -/
theorem execute_command_writes_verbatim_witness :
    (∃ res c', execute_command (str "account version")
        { input := str "mangos>mangos>mangos>", events := [],
          sockOpen := true } = .ok (res, c') ∧
      writesOf c'.events = writesOf [] ++ [str "\n", str "account version"]) ∧
    (∃ t, account_create_command (str "bob") (str "hunter2") = t ++ [nlChar] ∧
      nlChar ∉ t) :=
  ⟨(execute_command_writes_verbatim (str "account version")
      { input := str "mangos>mangos>mangos>", events := [], sockOpen := true }
      rfl (by decide)).1,
   (execute_command_writes_verbatim (str "account version")
      { input := str "mangos>mangos>mangos>", events := [], sockOpen := true }
      rfl (by decide)).2 (str "bob") (str "hunter2") (by decide) (by decide)⟩

/-- C8 (counterexample): the claim says a second `close()` is a no-op that
neither fails nor writes; in fact the second call writes on the released
client and raises `AttributeError` (`telnetlib` sets `sock = None`). -/
theorem close_not_idempotent_cex :
    close { input := [], events := [], sockOpen := true } =
      .ok { input := [], events := [.wrote (str "quit \n")], sockOpen := false } ∧
    close { input := [], events := [.wrote (str "quit \n")], sockOpen := false } =
      .error .attributeError :=
  ⟨rfl, rfl⟩

/-- C8 (amended): `close()` writes the logout command `quit \n` (expecting
no response) and releases the transport; it is not safe to call twice — a
second call attempts to write on the released client and fails with
`AttributeError` instead of being a no-op. -/
theorem close_writes_quit_and_releases (c : TnClient) (hopen : c.sockOpen = true) :
    close c =
      .ok { c with
            events := c.events ++ [.wrote (str "quit \n")],
            sockOpen := false } ∧
    close
      { c with
        events := c.events ++ [.wrote (str "quit \n")],
        sockOpen := false } = .error .attributeError := by
  have hq : iacEscape (str "quit \n") = str "quit \n" := by decide
  constructor
  · simp [close, disconnect, twrite, close_session, hopen, hq, except_bind_ok,
      pure, Except.pure]
  · simp [close, disconnect, twrite, except_bind_error]

/-- C8 (witness): the amended theorem evaluated on a fresh open session. -/
theorem close_writes_quit_and_releases_witness :
    close { input := [], events := [], sockOpen := true } =
      .ok { input := ([] : List Char),
            events := [] ++ [.wrote (str "quit \n")],
            sockOpen := false } ∧
    close
      { input := ([] : List Char),
        events := [] ++ [.wrote (str "quit \n")],
        sockOpen := false } = .error .attributeError :=
  close_writes_quit_and_releases
    { input := [], events := [], sockOpen := true } rfl

/-- C9: the out-of-range guards short-circuit before any I/O — for every
`gm_level < 0` or `gm_level > 3`, `account_set_gm_level` returns `false`
with the session state unchanged (no command written), and likewise
`account_set_addon` for every `addon < 0`. -/
theorem guards_short_circuit :
    (∀ u g c, (g < 0 ∨ g > 3) → account_set_gm_level u g c = .ok (false, c)) ∧
    (∀ u a c, a < 0 → account_set_addon u a c = .ok (false, c)) := by
  constructor
  · intro u g c h
    unfold account_set_gm_level
    rw [if_pos h]
  · intro u a c h
    unfold account_set_addon
    rw [if_pos h]

/-- C9 (witness): the guards evaluated at `gm_level = 4` and `addon = -1`. -/
theorem guards_short_circuit_witness :
    account_set_gm_level (str "bob") 4
        { input := [], events := [], sockOpen := true } =
      .ok (false, { input := [], events := [], sockOpen := true }) ∧
    account_set_addon (str "bob") (-1)
        { input := [], events := [], sockOpen := true } =
      .ok (false, { input := [], events := [], sockOpen := true }) :=
  ⟨guards_short_circuit.1 (str "bob") 4 _ (Or.inr (by decide)),
   guards_short_circuit.2 (str "bob") (-1) _ (by decide)⟩

/-- C10: `character_deleted_list` returns the empty list for every possible
console response (the always-true literal truthiness test short-circuits the
parsing), and `character_search_deleted_list` likewise for every character
argument: both equal the plain `execute_command` run with the payload
replaced by the empty list. -/
theorem deleted_lists_always_empty :
    (∀ c, character_deleted_list c =
      (execute_command (str "character deleted list \n") c).map
        (fun p => (DeletedListResult.emptyList, p.2))) ∧
    (∀ chara c, character_search_deleted_list chara c =
      (execute_command (str "character deleted list " ++ chara ++ str " \n") c).map
        (fun p => (DeletedListResult.emptyList, p.2))) := by
  constructor
  · intro c
    unfold character_deleted_list
    cases h : execute_command (str "character deleted list \n") c with
    | error e => rfl
    | ok p => rfl
  · intro chara c
    unfold character_search_deleted_list
    cases h : execute_command (str "character deleted list " ++ chara ++ str " \n") c with
    | error e => rfl
    | ok p => rfl

end CMangos
